import Mathlib
/-!
Verification of the ESP-IDF component-manager core of the `embuild` repository
(`src/espidf/components/mod.rs`, `hashing.rs`, `file_util.rs`) against its
specification.

The filesystem is embedded shallowly: a directory tree is a list of entries,
each carrying its root-relative path (a list of path components), a directory
flag, and its byte content.  Text that the code computes with is embedded as
`List Char` (named `Str` below) so that every operation is structurally
recursive and evaluates inside the kernel.  SHA-256 itself is an external
primitive (the `sha2` crate); it is embedded as an abstract byte-level
function `H : List Nat → List Nat`, while the streaming `update`/`finalize`
discipline of the `Digest` API is modelled explicitly: `update` accumulates
the bytes fed so far, finalization applies `H` and hex-encodes the result.
-/

/-! ## Definitions: the shallow embedding of the component-manager core -/

/-- Character strings of the model, as plain character lists. -/
abbrev Str := List Char

/-- Lowercase hex digit for a value below 16, as produced by Rust's
`format "{:02x}"` conversion. -/
def hexChar (n : Nat) : Char :=
  if n < 10 then Char.ofNat (48 + n) else Char.ofNat (87 + n)

/-- Two lowercase hex digits of one byte. -/
def byteHex (b : Nat) : List Char :=
  [hexChar (b / 16), hexChar (b % 16)]

/-- Lowercase hex encoding of a byte string, as produced by
`sha.finalize().to_vec().into_iter().map(format "{:02x}").concat()`. -/
def toHex (bs : List Nat) : Str :=
  (bs.map byteHex).flatten

/-- UTF-8 encoding of one character. -/
def utf8Bytes (c : Char) : List Nat :=
  let n := c.toNat
  if n < 128 then [n]
  else if n < 2048 then [192 + n / 64, 128 + n % 64]
  else if n < 65536 then [224 + n / 4096, 128 + (n / 64) % 64, 128 + n % 64]
  else [240 + n / 262144, 128 + (n / 4096) % 64, 128 + (n / 64) % 64, 128 + n % 64]

/-- The UTF-8 bytes of a string, modelling Rust's `str::as_bytes`. -/
def strBytes (s : Str) : List Nat :=
  (s.map utf8Bytes).flatten

/-- Model of the `sha2` crate digest state: the byte string fed so far.
`Digest::update` appends the new bytes. -/
def shaUpdate (st bs : List Nat) : List Nat := st ++ bs

/-- Model of `sha.finalize()` followed by lowercase hex encoding, the exact
chain every hashing function of `hashing.rs` ends with.  `H` is the abstract
SHA-256 compression function. -/
def shaFinalizeHex (H : List Nat → List Nat) (st : List Nat) : Str :=
  toHex (H st)

/-- Byte-lexicographic comparison of strings, the order `String::cmp` of Rust
induces (on UTF-8 text, byte order and codepoint order agree). -/
def leChars : Str → Str → Bool
  | [], _ => true
  | _ :: _, [] => false
  | a :: as, b :: bs => if a = b then leChars as bs else decide (a < b)

/-- One filesystem entry below a component root: its root-relative path as a
list of path components, whether it is a directory, and its byte content
(empty and irrelevant for directories). -/
structure Entry where
  path : List Str
  isDir : Bool
  content : List Nat
deriving DecidableEq

/-- Glob match of one pattern component against one path component, with `*`
matching any (possibly empty) character sequence, as in the `globset` syntax
used by the `globwalk` crate. -/
def matchComponent : Str → Str → Bool
  | [], s => s.isEmpty
  | p :: ps, s =>
    if p = '*' then s.tails.any (fun t => matchComponent ps t)
    else
      match s with
      | [] => false
      | c :: cs => p = c && matchComponent ps cs

/-- Glob match of a slash-split pattern against a relative path, with a `**`
component matching zero or more whole path components. -/
def matchComponents : List Str → List Str → Bool
  | [], s => s.isEmpty
  | p :: ps, s =>
    if p = ['*', '*'] then s.tails.any (fun t => matchComponents ps t)
    else
      match s with
      | [] => false
      | c :: cs => matchComponent p c && matchComponents ps cs

/-- Splitting a pattern at `/` separators, as `globset` parses patterns. -/
def splitSlash : Str → List Str
  | [] => [[]]
  | c :: cs =>
    if c = '/' then [] :: splitSlash cs
    else
      match splitSlash cs with
      | [] => [[c]]
      | h :: t => (c :: h) :: t

/-- Model of the `globwalk` pattern match used by `filtered_paths`: the
pattern is split on `/` and matched against the entry's root-relative path. -/
def globMatch (pattern : Str) (path : List Str) : Bool :=
  matchComponents (splitSlash pattern) path

/-- The built-in exclude list of `file_util.rs`, verbatim. -/
def DEFAULT_EXCLUDE : List Str := [
  "**/__pycache__".data,
  "**/*.pyc".data,
  "**/*.pyd".data,
  "**/*.pyo".data,
  "**/.DS_Store".data,
  "**/.git/**/*".data,
  "**/.svn/**/*".data,
  "**/dist/**/*".data,
  "**/build/**/*".data,
  "**/managed_components/**/*".data,
  "**/dependencies.lock".data,
  "**/.github/**/*".data,
  "**/.gitlab-ci.yml".data,
  "**/.idea/**/*".data,
  "**/.vscode/**/*".data,
  "**/.settings/**/*".data,
  "**/sdkconfig".data,
  "**/sdkconfig.old".data,
  "**/.component_hash".data]

/-- One `exclude_paths` call of `file_util.rs`: drop every path matching the
pattern from the accumulated set. -/
def applyExclude (paths : List Entry) (pattern : Str) : List Entry :=
  paths.filter (fun e => !globMatch pattern e.path)

/-- The check `pattern.ends_with("/**/*")` of `filtered_paths`. -/
def endsWithSlashGlob (pattern : Str) : Bool :=
  pattern.reverse.take 5 = ['*', '/', '*', '*', '/']

/-- The slice `pattern[..index]` taken in `filtered_paths` when the pattern
ends with the recursive suffix `/**/*`: the 5-character suffix is cut off. -/
def stripRecursiveSuffix (pattern : Str) : Str :=
  pattern.take (pattern.length - 5)

/-- The body of the default-exclude loop of `filtered_paths`: exclude the
pattern, and for a pattern ending in `/**/*` also exclude the bare directory
prefix. -/
def defaultStep (ps : List Entry) (pattern : Str) : List Entry :=
  if endsWithSlashGlob pattern then
    applyExclude (applyExclude ps pattern) (stripRecursiveSuffix pattern)
  else applyExclude ps pattern

/-- Embedding of `filtered_paths` from `file_util.rs`: seed with every entry
reachable under the root (glob `**/*`), then remove default-excluded paths
(also removing the bare directory for patterns ending in `/**/*`), then
remove user-excluded paths.  The `HashSet` of the source is embedded as a
list; the arbitrariness of its iteration order is treated by quantifying over
permutations of the entry list (see the determinism theorem). -/
def filtered_paths (fs : List Entry) (exclude : List Str) (exclude_default : Bool) :
    List Entry :=
  let paths := fs.filter (fun e => globMatch "**/*".data e.path)
  let paths :=
    if exclude_default then DEFAULT_EXCLUDE.foldl defaultStep paths
    else paths
  exclude.foldl applyExclude paths

/-- Embedding of `to_relative_posix_path` from `hashing.rs`: the entry's
root-relative path components joined with forward slashes. -/
def to_relative_posix_path : List Str → Str
  | [] => []
  | [p] => p
  | p :: q :: ps => p ++ '/' :: to_relative_posix_path (q :: ps)

/-- The fixed streaming block size of `hash_file`. -/
def BLOCK_SIZE : Nat := 65536

/-- Fuel-indexed helper for `toBlocks`; the fuel is an upper bound on the
number of blocks and is initialized with the content length. -/
def toBlocksGo : Nat → List Nat → List (List Nat)
  | _, [] => []
  | 0, l => [l]
  | fuel + 1, x :: xs => (x :: xs).take BLOCK_SIZE :: toBlocksGo fuel ((x :: xs).drop BLOCK_SIZE)

/-- The successive blocks the `BufReader` loop of `hash_file` reads: at most
`BLOCK_SIZE` bytes each, in order, until the content is exhausted. -/
def toBlocks (l : List Nat) : List (List Nat) :=
  toBlocksGo l.length l

/-- Embedding of `hash_file` from `hashing.rs`: SHA-256 of the file content,
fed block by block, finalized and hex-encoded in lowercase. -/
def hash_file (H : List Nat → List Nat) (content : List Nat) : Str :=
  shaFinalizeHex H ((toBlocks content).foldl shaUpdate [])

/-- The per-entry body of the hashing loop of `hash_dir`: directories are
skipped; for a file the relative-path bytes and then the bytes of the file's
hex-encoded hash are fed into the running digest. -/
def hashStep (H : List Nat → List Nat) (st : List Nat) (pr : Entry × Str) : List Nat :=
  if pr.1.isDir then st
  else shaUpdate (shaUpdate st (strBytes pr.2)) (strBytes (hash_file H pr.1.content))

/-- Embedding of `hash_dir` from `hashing.rs`: filter the tree, pair every
entry with its relative posix path, sort the pairs by that path (`sort_by`
is a stable sort, embedded as insertion sort, which computes the same list),
then run the hashing loop over the sorted pairs and finalize. -/
def hash_dir (H : List Nat → List Nat) (fs : List Entry) (excludes : List Str)
    (exclude_default : Bool) : Str :=
  let entries := filtered_paths fs excludes exclude_default
  let entries := entries.map (fun e => (e, to_relative_posix_path e.path))
  let sorted := entries.insertionSort (fun a b => leChars a.2 b.2 = true)
  shaFinalizeHex H (sorted.foldl (hashStep H) [])

/-- The marker file name `.component_hash` of `hashing.rs`. -/
def HASH_FILENAME : Str := ".component_hash".data

/-- Embedding of `create_hash_file` from `hashing.rs`: writing the marker
file adds a top-level `.component_hash` file whose bytes are the hash text. -/
def create_hash_file (fs : List Entry) (hash : Str) : List Entry :=
  fs ++ [⟨[HASH_FILENAME], false, strBytes hash⟩]

/-- A directory entry used in concrete filter scenarios. -/
def fooDir : Entry := ⟨["foo".data], true, []⟩

/-- A file inside `fooDir` used in concrete filter scenarios. -/
def fooFile : Entry := ⟨["foo".data, "a".data], false, [1]⟩

/-- The relative-path sort key of an entry. -/
def relKey (e : Entry) : Str := to_relative_posix_path e.path

/-- The byte stream one file entry contributes to the directory hash
according to the specification: the relative-path bytes followed by the
bytes of the file's lowercase hex SHA-256 digest; directories contribute
nothing. -/
def entryStream (H : List Nat → List Nat) (e : Entry) : Option (List Nat) :=
  if e.isDir then none
  else some (strBytes (relKey e) ++ strBytes (toHex (H e.content)))

/-- The directory hash as the specification words it: sort the filtered
entries by slash-separated root-relative path in byte-lexicographic order,
skip directories, feed each file's relative-path bytes and then its own
lowercase hex digest into one SHA-256, and hex-encode the result in
lowercase. -/
def hash_dir_spec (H : List Nat → List Nat) (fs : List Entry) (excludes : List Str)
    (exclude_default : Bool) : Str :=
  let sorted := (filtered_paths fs excludes exclude_default).insertionSort
    (fun a b => leChars (relKey a) (relKey b) = true)
  toHex (H (sorted.filterMap (entryStream H)).flatten)

/-- Shallow embedding of Rust's `Result` type (`anyhow::Result` with the
error rendered as its message text). -/
inductive RustResult (α : Type) where
  | ok (value : α)
  | err (msg : Str)
deriving DecidableEq

/-- The state of a component root on disk: whether the root directory
exists, and the entries below it. -/
structure World where
  rootIsDir : Bool
  entries : List Entry
deriving DecidableEq

/-- The bytes of the top-level `.component_hash` file, when such a file
exists (`hash_file_path.exists()` and `fs::read_to_string`). -/
def markerContent (fs : List Entry) : Option (List Nat) :=
  (fs.find? (fun e => e.path == [HASH_FILENAME] && !e.isDir)).map Entry.content

/-- Text decoding of a file's bytes, for the ASCII text stored in marker
files. -/
def bytesAsChars (bs : List Nat) : Str :=
  bs.map Char.ofNat

/-- Model of Rust's `str::trim`: leading and trailing whitespace removed. -/
def trimChars (s : Str) : Str :=
  ((s.dropWhile Char.isWhitespace).reverse.dropWhile Char.isWhitespace).reverse

/-- Trailing-whitespace-only trimming, the reading the specification's
marker-file sentence describes. -/
def trimEndChars (s : Str) : Str :=
  (s.reverse.dropWhile Char.isWhitespace).reverse

/-- One character of the character class of the `SHA256_RE` regular
expression `[A-Fa-f0-9]`. -/
def isHexDigit (c : Char) : Bool :=
  ('0' ≤ c && c ≤ '9') || ('a' ≤ c && c ≤ 'f') || ('A' ≤ c && c ≤ 'F')

/-- The regular expression check `^[A-Fa-f0-9]{64}$` of `hashing.rs`. -/
def isSha256Hex (s : Str) : Bool :=
  s.length == 64 && s.all isHexDigit

/-- Embedding of `validate_dir` from `hashing.rs`: recompute the directory
hash (excluding the marker file, with default excludes) and compare it for
byte equality with the expected hash; error when the root is not a
directory.  Path interpolation in the message is omitted in the model. -/
def validate_dir (H : List Nat → List Nat) (w : World) (dir_hash : Str) : RustResult Bool :=
  if w.rootIsDir then .ok (hash_dir H w.entries [HASH_FILENAME] true == dir_hash)
  else .err "Root path is not a directory".data

/-- Embedding of `validate_dir_with_hash_file` from `hashing.rs`: error if
the root is not a directory or the marker file is absent; read and trim the
marker text; reject text failing the 64-hex-digit pattern; otherwise
succeed exactly when the recomputed hash equals the stored text.  Path
interpolation in the messages is omitted in the model. -/
def validate_dir_with_hash_file (H : List Nat → List Nat) (w : World) : RustResult Unit :=
  match markerContent w.entries with
  | none => .err "Hash file does not exist".data
  | some bs =>
    if w.rootIsDir then
      let hash_from_file := trimChars (bytesAsChars bs)
      if isSha256Hex hash_from_file then
        match validate_dir H w hash_from_file with
        | .err e => .err e
        | .ok b =>
          if b then .ok ()
          else .err "Hash in file has changed since it was downloaded. Please download the component again.".data
      else .err "Hash is not a SHA256".data
    else .err "Hash file does not exist".data

/-- Modelled from the spec: `metadata::installed_component_matches_version`
lives in `metadata.rs`, which is not among the sources.  Per the
specification's state machine, the installer moves `Unchecked → CacheValid`
exactly when the component root directory exists, the installed manifest
version satisfies the requested constraint, and — if a cache marker exists —
the marker is valid and matches the recomputed hash (the marker check being
`validate_dir_with_hash_file` of `hashing.rs`).  The manifest version is the
parsed `version` field of the on-disk manifest (`none` when the manifest is
absent), and `satisfies` is the semver constraint test. -/
def installed_component_matches_version (H : List Nat → List Nat) (w : World)
    (manifest_version : Option Str) (satisfies : Str → Bool) : Bool :=
  w.rootIsDir &&
  (match manifest_version with
   | some v => satisfies v
   | none => false) &&
  (match markerContent w.entries with
   | none => true
   | some _ =>
     match validate_dir_with_hash_file H w with
     | .ok _ => true
     | .err _ => false)

/-- The two outcomes of the installer's cache check in
`resolve_component`: a valid cache skips the re-fetch, anything else takes
the `install_component` branch. -/
inductive CacheState where
  | CacheValid
  | CacheStaleOrMissing
deriving DecidableEq

/-- The `Unchecked` decision of `resolve_component`: re-fetch exactly when
`installed_component_matches_version` denies the cached state. -/
def check_cache (H : List Nat → List Nat) (w : World) (manifest_version : Option Str)
    (satisfies : Str → Bool) : CacheState :=
  if installed_component_matches_version H w manifest_version satisfies then
    CacheState.CacheValid
  else CacheState.CacheStaleOrMissing

/-- A semantic version, modelled by its numeric triple (the published
versions the selection compares; pre-release tags are outside the
specified behavior, see the spec's open question on equal precedence). -/
structure Version where
  major : Nat
  minor : Nat
  patch : Nat
deriving DecidableEq

/-- Strict semantic-version precedence on the numeric triple. -/
def Version.lt (a b : Version) : Bool :=
  decide (a.major < b.major) ||
  (a.major == b.major && (decide (a.minor < b.minor) ||
    (a.minor == b.minor && decide (a.patch < b.patch))))

/-- Decimal digits of a natural number (fuel-indexed helper). -/
def natCharsGo : Nat → Nat → Str
  | 0, n => [Char.ofNat (48 + n % 10)]
  | fuel + 1, n =>
    if n < 10 then [Char.ofNat (48 + n)]
    else natCharsGo fuel (n / 10) ++ [Char.ofNat (48 + n % 10)]

/-- Decimal rendering of a natural number, as Rust's `Display` for
unsigned integers produces. -/
def natChars (n : Nat) : Str :=
  natCharsGo n n

/-- The `Display` rendering `major.minor.patch` of a semantic version. -/
def verString (v : Version) : Str :=
  natChars v.major ++ '.' :: natChars v.minor ++ '.' :: natChars v.patch

/-- One published registry version: its semantic version, download url and
optional yank timestamp. -/
structure PublishedVersion where
  version : Version
  url : Str
  yanked_at : Option Nat
deriving DecidableEq

/-- The `Vec::join(", ")` of Rust. -/
def joinCommaSpace : List Str → Str
  | [] => []
  | [s] => s
  | s :: t :: rest => s ++ ',' :: ' ' :: joinCommaSpace (t :: rest)

/-- Embedding of the `available_versions` construction of
`install_component` in `mod.rs`: the versions whose `yanked_at` is `None`,
rendered and joined with a comma and space. -/
def available_versions (versions : List PublishedVersion) : Str :=
  joinCommaSpace ((versions.filter (fun v => v.yanked_at.isNone)).map (fun v => verString v.version))

/-- One step of keeping the best candidate so far. -/
def pickBest (best : Option PublishedVersion) (v : PublishedVersion) :
    Option PublishedVersion :=
  match best with
  | none => some v
  | some b => if Version.lt b.version v.version then some v else some b

/-- Modelled from the spec: `api::find_best_match` lives in `api.rs`, which
is not among the sources.  Per the specification's selection policy, among
all non-yanked versions satisfying the constraint under semantic-version
precedence, the highest is chosen; `none` when no non-yanked version
satisfies the constraint. -/
def find_best_match (versions : List PublishedVersion) (vmatch : Version → Bool) :
    Option PublishedVersion :=
  (versions.filter (fun v => v.yanked_at.isNone && vmatch v.version)).foldl pickBest none

/-- Embedding of the selection step of `install_component` in `mod.rs`
(lines constructing `available_versions` and calling `find_best_match` with
the no-matching-version context message). -/
def select_version (versions : List PublishedVersion) (vmatch : Version → Bool)
    (name req_str : Str) : RustResult PublishedVersion :=
  match find_best_match versions vmatch with
  | some v => .ok v
  | none =>
    .err ("No matching version found for component '".data ++ name ++
      "' with version spec '".data ++ req_str ++
      "'. Available versions are: ".data ++ available_versions versions)

/-- The published list of the specification's selection test: `1.0.0`,
`1.1.0` (yanked), `1.2.0`. -/
def demoVersions : List PublishedVersion :=
  [⟨⟨1, 0, 0⟩, "u1".data, none⟩, ⟨⟨1, 1, 0⟩, "u2".data, some 5⟩, ⟨⟨1, 2, 0⟩, "u3".data, none⟩]

/-- The version `1.2.0` entry of the demo list. -/
def pv120 : PublishedVersion := ⟨⟨1, 2, 0⟩, "u3".data, none⟩

/-- One declared component dependency of `mod.rs` (`IdfComponentDep`).  The
Rust field `namespace` is a Lean keyword and is embedded as `ns`; the
version requirement is kept as its source text. -/
structure IdfComponentDep where
  ns : Str
  name : Str
  version_req : Str
deriving DecidableEq

/-- The directory name `format "{}__{}"` of `namespace` and `name` that
`install` joins below the components directory. -/
def target_dir_name (c : IdfComponentDep) : Str :=
  c.ns ++ '_' :: '_' :: c.name

/-- The full target root `components_dir.join(...)` of one request. -/
def target_path (components_dir : Str) (c : IdfComponentDep) : Str :=
  components_dir ++ '/' :: target_dir_name c

/-- Embedding of the name parsing of `with_component` in `mod.rs`: the
combined request string is split at `/` and accepted exactly when that
yields a namespace and a name. -/
def parse_component_name (s : Str) : Option (Str × Str) :=
  match splitSlash s with
  | [ns, n] => some (ns, n)
  | _ => none

/-- One resolved component of `mod.rs` (`ResolvedIdfComponent`); the Rust
field `namespace` is embedded as `ns`. -/
structure ResolvedIdfComponent where
  ns : Str
  name : Str
  version : Version
  component_hash : Option Str
  path : Str
deriving DecidableEq

/-- Embedding of `install` from `mod.rs`: iterate the declared components
in order, compute each target path below the components directory, resolve
it (dependency-injected `resolve_component` collaborator), abort on the
first error, and collect the resolved components in order (the
`DepSolution` wrapper is modelled as the list it holds). -/
def install (resolve : IdfComponentDep → Str → RustResult ResolvedIdfComponent)
    (components_dir : Str) : List IdfComponentDep → RustResult (List ResolvedIdfComponent)
  | [] => .ok []
  | c :: rest =>
    match resolve c (target_path components_dir c) with
    | .err e => .err e
    | .ok r =>
      match install resolve components_dir rest with
      | .err e => .err e
      | .ok rs => .ok (r :: rs)

/-- A request that the demo resolver accepts. -/
def goodDep : IdfComponentDep := ⟨"esp".data, "good".data, "1".data⟩

/-- A request that the demo resolver rejects. -/
def badDep : IdfComponentDep := ⟨"esp".data, "bad".data, "1".data⟩

/-- A concrete resolver: fails on `badDep`, succeeds on anything else. -/
def resolveDemo (c : IdfComponentDep) (p : Str) : RustResult ResolvedIdfComponent :=
  if c.name = "bad".data then .err "boom".data
  else .ok ⟨c.ns, c.name, ⟨1, 0, 0⟩, none, p⟩

/-- The observable outcome of a Rust function that may also panic:
`ok`/`err` are the two `Result` values, `panicked` is a crash raised by
`unwrap`/`expect`, which never reaches the caller as an `Err`. -/
inductive RustOutcome (α : Type) where
  | ok (value : α)
  | err (msg : Str)
  | panicked (msg : Str)
deriving DecidableEq

/-- The manifest data `read_component_metadata` parses from
`idf_component.yml`; the version is kept as source text, parsed later by
`semver::Version::parse`. -/
structure ComponentMetadata where
  name : Str
  version : Str
deriving DecidableEq

/-- Embedding of `resolve_component` from `mod.rs` with its collaborators
dependency-injected as their results: the cache check
(`installed_component_matches_version`), the re-fetch (`install_component`,
consulted only when the cache check denies), the marker read
(`read_hash_file`) and the manifest read (`read_component_metadata`, where
`ok none` is an absent manifest).  Each `?` propagates the error to the
caller; the `expect` on an absent manifest and the `unwrap` on an
unparsable manifest version panic instead. -/
def resolve_component (matches_result : RustResult Bool) (install_result : RustResult Unit)
    (read_hash_result : RustResult Str)
    (read_metadata_result : RustResult (Option ComponentMetadata))
    (parse_version : Str → Option Version) (c : IdfComponentDep)
    (component_root : Str) : RustOutcome ResolvedIdfComponent :=
  match matches_result with
  | .err e => .err e
  | .ok matched =>
    match (if matched then RustResult.ok () else install_result) with
    | .err e => .err e
    | .ok _ =>
      match read_hash_result with
      | .err e => .err e
      | .ok component_hash =>
        match read_metadata_result with
        | .err e => .err e
        | .ok none => .panicked "Component metadata file should exist after install".data
        | .ok (some m) =>
          match parse_version m.version with
          | none => .panicked "called Option::unwrap on a None value".data
          | some v => .ok ⟨c.ns, c.name, v, some component_hash, component_root⟩

/-! ## Theorems: the claims settled against the embedding -/

example : toHex [0, 171, 255] = "00abff".data := by decide

example : globMatch "**/.component_hash".data [".component_hash".data] = true := by decide

example : globMatch "**/.component_hash".data ["a".data, ".component_hash".data] = true := by
  decide

example : globMatch "**/*.pyc".data ["x".data, "y.pyc".data] = true := by decide

example : globMatch "**/*".data ["a".data] = true := by decide

example : globMatch "**/*".data [] = false := by decide

example : globMatch "foo/**/*".data ["foo".data] = false := by decide

example : globMatch "foo/**/*".data ["foo".data, "a".data] = true := by decide

example : globMatch "**/.git".data [".git".data] = true := by decide

example : stripRecursiveSuffix "**/.git/**/*".data = "**/.git".data := by decide

example : endsWithSlashGlob "**/.git/**/*".data = true := by decide

example : endsWithSlashGlob "**/*.pyc".data = false := by decide

example : to_relative_posix_path ["a".data, "b".data] = "a/b".data := by decide

example : leChars "a-c".data "a/b".data = true := by decide

lemma mem_applyExclude {e : Entry} {ps : List Entry} {pattern : Str} :
    e ∈ applyExclude ps pattern ↔ e ∈ ps ∧ globMatch pattern e.path = false := by
  simp [applyExclude, List.mem_filter]

lemma mem_foldl_applyExclude (pats : List Str) (acc : List Entry) (e : Entry) :
    e ∈ pats.foldl applyExclude acc ↔
      e ∈ acc ∧ ∀ p ∈ pats, globMatch p e.path = false := by
  induction pats generalizing acc with
  | nil => simp
  | cons p ps ih =>
    simp only [List.foldl_cons, ih, mem_applyExclude, List.mem_cons]
    constructor
    · rintro ⟨⟨h1, h2⟩, h3⟩
      exact ⟨h1, by rintro q (rfl | hq); exact h2; exact h3 q hq⟩
    · rintro ⟨h1, h2⟩
      exact ⟨⟨h1, h2 p (Or.inl rfl)⟩, fun q hq => h2 q (Or.inr hq)⟩

lemma defaultStep_eq (acc : List Entry) (p : Str) :
    defaultStep acc p =
      if endsWithSlashGlob p = true then
        applyExclude (applyExclude acc p) (stripRecursiveSuffix p)
      else applyExclude acc p := rfl

lemma mem_foldl_defaultStep (pats : List Str) (acc : List Entry) (e : Entry) :
    e ∈ pats.foldl defaultStep acc ↔
      e ∈ acc ∧ ∀ p ∈ pats, globMatch p e.path = false ∧
        (endsWithSlashGlob p = true → globMatch (stripRecursiveSuffix p) e.path = false) := by
  induction pats generalizing acc with
  | nil => simp
  | cons p ps ih =>
    simp only [List.foldl_cons, defaultStep_eq]
    by_cases h : endsWithSlashGlob p = true
    · rw [if_pos h]
      simp only [ih, mem_applyExclude, List.mem_cons]
      constructor
      · rintro ⟨⟨⟨h1, h2⟩, h3⟩, h4⟩
        refine ⟨h1, ?_⟩
        rintro q (rfl | hq)
        · exact ⟨h2, fun _ => h3⟩
        · exact h4 q hq
      · rintro ⟨h1, h2⟩
        exact ⟨⟨⟨h1, (h2 p (Or.inl rfl)).1⟩, (h2 p (Or.inl rfl)).2 h⟩,
          fun q hq => h2 q (Or.inr hq)⟩
    · rw [if_neg h]
      simp only [ih, mem_applyExclude, List.mem_cons]
      constructor
      · rintro ⟨⟨h1, h2⟩, h3⟩
        refine ⟨h1, ?_⟩
        rintro q (rfl | hq)
        · exact ⟨h2, fun hc => absurd hc h⟩
        · exact h3 q hq
      · rintro ⟨h1, h2⟩
        exact ⟨⟨h1, (h2 p (Or.inl rfl)).1⟩, fun q hq => h2 q (Or.inr hq)⟩

lemma mem_filtered_paths (fs : List Entry) (ex : List Str) (dflt : Bool) (e : Entry) :
    e ∈ filtered_paths fs ex dflt ↔
      e ∈ fs ∧ globMatch "**/*".data e.path = true ∧
      (dflt = true → ∀ p ∈ DEFAULT_EXCLUDE, globMatch p e.path = false ∧
        (endsWithSlashGlob p = true → globMatch (stripRecursiveSuffix p) e.path = false)) ∧
      (∀ p ∈ ex, globMatch p e.path = false) := by
  unfold filtered_paths
  cases dflt with
  | false =>
    simp only [if_false, mem_foldl_applyExclude, List.mem_filter, Bool.false_eq_true,
      false_implies, true_and]
    tauto
  | true =>
    simp only [if_true, mem_foldl_applyExclude, mem_foldl_defaultStep, List.mem_filter,
      forall_const]
    tauto

lemma foldl_applyExclude_append (pats : List Str) (a b : List Entry) :
    pats.foldl applyExclude (a ++ b) =
      pats.foldl applyExclude a ++ pats.foldl applyExclude b := by
  induction pats generalizing a b with
  | nil => rfl
  | cons p ps ih => simp only [List.foldl_cons, applyExclude, List.filter_append, ih]

lemma foldl_defaultStep_append (pats : List Str) (a b : List Entry) :
    pats.foldl defaultStep (a ++ b) =
      pats.foldl defaultStep a ++ pats.foldl defaultStep b := by
  induction pats generalizing a b with
  | nil => rfl
  | cons p ps ih =>
    simp only [List.foldl_cons, defaultStep_eq]
    by_cases h : endsWithSlashGlob p = true
    · rw [if_pos h, if_pos h, if_pos h]
      simp only [applyExclude, List.filter_append, ih]
    · rw [if_neg h, if_neg h, if_neg h]
      simp only [applyExclude, List.filter_append, ih]

lemma filtered_paths_append (fs1 fs2 : List Entry) (ex : List Str) (dflt : Bool) :
    filtered_paths (fs1 ++ fs2) ex dflt =
      filtered_paths fs1 ex dflt ++ filtered_paths fs2 ex dflt := by
  unfold filtered_paths
  cases dflt <;>
    simp only [if_true, if_false, Bool.false_eq_true, Bool.true_eq_false, List.filter_append,
      foldl_defaultStep_append, foldl_applyExclude_append]

lemma foldl_applyExclude_perm (pats : List Str) {a b : List Entry} (h : a.Perm b) :
    (pats.foldl applyExclude a).Perm (pats.foldl applyExclude b) := by
  induction pats generalizing a b with
  | nil => exact h
  | cons p ps ih => exact ih (h.filter _)

lemma foldl_defaultStep_perm (pats : List Str) {a b : List Entry} (h : a.Perm b) :
    (pats.foldl defaultStep a).Perm (pats.foldl defaultStep b) := by
  induction pats generalizing a b with
  | nil => exact h
  | cons p ps ih =>
    apply ih
    unfold defaultStep
    by_cases hp : endsWithSlashGlob p = true
    · rw [if_pos hp, if_pos hp]; exact (h.filter _).filter _
    · rw [if_neg hp, if_neg hp]; exact h.filter _

lemma filtered_paths_perm {fs1 fs2 : List Entry} (ex : List Str) (dflt : Bool)
    (h : fs1.Perm fs2) :
    (filtered_paths fs1 ex dflt).Perm (filtered_paths fs2 ex dflt) := by
  cases dflt with
  | false =>
    simp only [filtered_paths, Bool.false_eq_true, if_false]
    exact foldl_applyExclude_perm ex (h.filter _)
  | true =>
    simp only [filtered_paths, if_true]
    exact foldl_applyExclude_perm ex (foldl_defaultStep_perm _ (h.filter _))

lemma filtered_paths_subset (fs : List Entry) (ex : List Str) (dflt : Bool) :
    ∀ e ∈ filtered_paths fs ex dflt, e ∈ fs := by
  intro e he
  exact ((mem_filtered_paths fs ex dflt e).mp he).1

lemma filtered_paths_marker_nil (d : Bool) (content : List Nat) (ex : List Str) :
    filtered_paths [⟨[HASH_FILENAME], d, content⟩] ex true = [] := by
  rw [List.eq_nil_iff_forall_not_mem]
  intro e he
  rw [mem_filtered_paths] at he
  obtain ⟨hmem, -, hdflt, -⟩ := he
  simp only [List.mem_singleton] at hmem
  subst hmem
  have hpat : "**/.component_hash".data ∈ DEFAULT_EXCLUDE := by
    unfold DEFAULT_EXCLUDE
    repeat first
    | exact List.mem_cons_self _ _
    | apply List.mem_cons_of_mem
  have := (hdflt rfl _ hpat).1
  rw [show globMatch "**/.component_hash".data [HASH_FILENAME] = true from by decide] at this
  exact absurd this (by decide)

/-- Claim C4 is false on the code: the user exclude pattern `foo/**/*` is a
directory-recursive glob and removes the file `foo/a`, but the directory
entry `foo` itself stays in the result — the directory-stripping rule of
`filtered_paths` runs only inside the default-exclude loop. -/
theorem user_exclude_keeps_directory_counterexample :
    filtered_paths [fooDir, fooFile] ["foo/**/*".data] false = [fooDir] ∧
    endsWithSlashGlob "foo/**/*".data = true ∧
    globMatch "foo/**/*".data fooFile.path = true ∧
    globMatch "foo/**/*".data fooDir.path = false := by decide

/-- Claim C4 (amended): a user exclude pattern removes exactly the paths it
matches — no directory-stripping is applied to user patterns, so the
directory entry of a user directory-recursive glob survives filtering —
while the built-in default excludes do strip the bare directory (here:
`.git`, stripped from the default pattern ending in the recursive suffix). -/
theorem user_excludes_strip_only_default_dirs (fs : List Entry) (pats : List Str) (e : Entry) :
    (e ∈ filtered_paths fs pats false ↔
      e ∈ fs ∧ globMatch "**/*".data e.path = true ∧
        ∀ p ∈ pats, globMatch p e.path = false) ∧
    (∀ d c, (⟨[".git".data], d, c⟩ : Entry) ∉ filtered_paths fs pats true) := by
  constructor
  · rw [mem_filtered_paths]
    simp
  · intro d c hm
    rw [mem_filtered_paths] at hm
    obtain ⟨-, -, hdflt, -⟩ := hm
    have hpat : "**/.git/**/*".data ∈ DEFAULT_EXCLUDE := by
      unfold DEFAULT_EXCLUDE
      repeat first
      | exact List.mem_cons_self _ _
      | apply List.mem_cons_of_mem
    have h2 := (hdflt rfl _ hpat).2 (by decide)
    rw [show stripRecursiveSuffix "**/.git/**/*".data = "**/.git".data from by decide] at h2
    have h3 : globMatch "**/.git".data [".git".data] = false := h2
    exact absurd h3 (by decide)

/-- Witness: on the concrete two-entry tree, the directory entry is kept by
the user exclude and the `.git` directory is dropped by the defaults. -/
theorem user_excludes_strip_only_default_dirs_witness :
    fooDir ∈ filtered_paths [fooDir, fooFile] ["foo/**/*".data] false ∧
    (⟨[".git".data], true, []⟩ : Entry) ∉ filtered_paths [fooDir, fooFile] [] true :=
  ⟨(user_excludes_strip_only_default_dirs [fooDir, fooFile] ["foo/**/*".data] fooDir).1.mpr
      ⟨by decide, by decide, by decide⟩,
    (user_excludes_strip_only_default_dirs [fooDir, fooFile] [] fooDir).2 true []⟩

/-- Claim C8: writing the cache marker file into a directory and re-hashing
with the default excludes enabled yields the same hash as before the marker
existed, for every tree, extra exclude list and hash text. -/
theorem marker_self_exclusion (H : List Nat → List Nat) (fs : List Entry) (ex : List Str)
    (h : Str) :
    hash_dir H (create_hash_file fs h) ex true = hash_dir H fs ex true := by
  simp only [hash_dir, create_hash_file, filtered_paths_append, filtered_paths_marker_nil,
    List.append_nil]

lemma leChars_total (a b : Str) : (leChars a b || leChars b a) = true := by
  induction a generalizing b with
  | nil => simp [leChars]
  | cons x xs ih =>
    cases b with
    | nil => simp [leChars]
    | cons y ys =>
      by_cases hxy : x = y
      · subst hxy
        simpa [leChars] using ih ys
      · rcases lt_or_gt_of_ne hxy with h | h
        · simp [leChars, hxy, h]
        · simp [leChars, hxy, Ne.symm hxy, h, le_of_lt]

lemma leChars_trans {a b c : Str} (hab : leChars a b = true) (hbc : leChars b c = true) :
    leChars a c = true := by
  induction a generalizing b c with
  | nil => simp [leChars]
  | cons x xs ih =>
    cases b with
    | nil => simp [leChars] at hab
    | cons y ys =>
      cases c with
      | nil => simp [leChars] at hbc
      | cons z zs =>
        by_cases hxy : x = y <;> by_cases hyz : y = z
        · subst hxy; subst hyz
          simp only [leChars, if_pos rfl] at *
          exact ih hab hbc
        · subst hxy
          simp only [leChars, if_pos rfl, if_neg hyz, decide_eq_true_eq] at *
          simp [leChars, hyz, hbc]
        · subst hyz
          simp only [leChars, if_pos rfl, if_neg hxy, decide_eq_true_eq] at *
          simp [leChars, hxy, hab]
        · simp only [leChars, if_neg hxy, if_neg hyz, decide_eq_true_eq] at hab hbc
          have hxz : x < z := lt_trans hab hbc
          simp [leChars, ne_of_lt hxz, hxz]

lemma leChars_antisymm {a b : Str} (hab : leChars a b = true) (hba : leChars b a = true) :
    a = b := by
  induction a generalizing b with
  | nil =>
    cases b with
    | nil => rfl
    | cons y ys => simp [leChars] at hba
  | cons x xs ih =>
    cases b with
    | nil => simp [leChars] at hab
    | cons y ys =>
      by_cases hxy : x = y
      · subst hxy
        simp only [leChars, if_pos rfl] at hab hba
        rw [ih hab hba]
      · simp only [leChars, if_neg hxy, if_neg (Ne.symm hxy), decide_eq_true_eq] at hab hba
        exact absurd hab (not_lt_of_gt hba)

/-- Two sorted lists that are permutations of each other and whose sort keys
are injective on their elements are equal. -/
lemma eq_of_perm_of_sorted_key {α : Type} (k : α → Str) :
    ∀ {l1 l2 : List α}, l1.Perm l2 →
      l1.Pairwise (fun a b => leChars (k a) (k b) = true) →
      l2.Pairwise (fun a b => leChars (k a) (k b) = true) →
      (∀ a ∈ l1, ∀ b ∈ l1, k a = k b → a = b) → l1 = l2 := by
  intro l1
  induction l1 with
  | nil =>
    intro l2 hp _ _ _
    exact (hp.symm.eq_nil).symm
  | cons a t1 ih =>
    intro l2 hp hs1 hs2 hinj
    cases l2 with
    | nil => simp at hp
    | cons b t2 =>
      have hab : a = b := by
        by_cases hne : a = b
        · exact hne
        · have hain : a ∈ t2 := by
            have : a ∈ b :: t2 := hp.subset (List.mem_cons_self a t1)
            rcases List.mem_cons.mp this with h | h
            · exact absurd h hne
            · exact h
          have hbin : b ∈ t1 := by
            have : b ∈ a :: t1 := hp.symm.subset (List.mem_cons_self b t2)
            rcases List.mem_cons.mp this with h | h
            · exact absurd h.symm hne
            · exact h
          have h1 : leChars (k a) (k b) = true := (List.pairwise_cons.mp hs1).1 b hbin
          have h2 : leChars (k b) (k a) = true := (List.pairwise_cons.mp hs2).1 a hain
          exact hinj a (List.mem_cons_self a t1) b (List.mem_cons_of_mem a hbin)
            (leChars_antisymm h1 h2)
      subst hab
      have ht : t1.Perm t2 := hp.cons_inv
      have := ih ht (List.pairwise_cons.mp hs1).2 (List.pairwise_cons.mp hs2).2
        (fun x hx y hy hk => hinj x (List.mem_cons_of_mem a hx) y (List.mem_cons_of_mem a hy) hk)
      rw [this]

lemma orderedInsert_map {α β : Type} (f : α → β) (ra : α → α → Prop) (rb : β → β → Prop)
    [DecidableRel ra] [DecidableRel rb] (hcomp : ∀ a b, ra a b ↔ rb (f a) (f b))
    (a : α) (l : List α) :
    (List.orderedInsert ra a l).map f = List.orderedInsert rb (f a) (l.map f) := by
  induction l with
  | nil => rfl
  | cons x xs ih =>
    simp only [List.orderedInsert, List.map_cons]
    by_cases h : ra a x
    · rw [if_pos h, if_pos ((hcomp a x).mp h)]
      simp
    · rw [if_neg h, if_neg (fun hc => h ((hcomp a x).mpr hc))]
      simp [ih]

lemma insertionSort_map {α β : Type} (f : α → β) (ra : α → α → Prop) (rb : β → β → Prop)
    [DecidableRel ra] [DecidableRel rb] (hcomp : ∀ a b, ra a b ↔ rb (f a) (f b))
    (l : List α) :
    (List.insertionSort ra l).map f = List.insertionSort rb (l.map f) := by
  induction l with
  | nil => rfl
  | cons x xs ih =>
    simp only [List.insertionSort, List.map_cons]
    rw [orderedInsert_map f ra rb hcomp, ih]

lemma foldl_shaUpdate (blocks : List (List Nat)) (st : List Nat) :
    blocks.foldl shaUpdate st = st ++ blocks.flatten := by
  induction blocks generalizing st with
  | nil => simp
  | cons b bs ih => simp [shaUpdate, ih, List.append_assoc]

lemma toBlocksGo_flatten (fuel : Nat) (l : List Nat) (h : l.length ≤ fuel) :
    (toBlocksGo fuel l).flatten = l := by
  induction fuel generalizing l with
  | zero =>
    cases l with
    | nil => rfl
    | cons x xs => simp at h
  | succ fuel ih =>
    cases l with
    | nil => rfl
    | cons x xs =>
      simp only [toBlocksGo, List.flatten_cons]
      rw [ih ((x :: xs).drop BLOCK_SIZE)
        (by simp only [List.length_drop, List.length_cons, BLOCK_SIZE]
            simp only [List.length_cons] at h
            omega)]
      exact List.take_append_drop _ _

lemma toBlocks_flatten (l : List Nat) : (toBlocks l).flatten = l :=
  toBlocksGo_flatten l.length l le_rfl

/-- Streaming a file block by block hashes exactly the file's bytes. -/
lemma hash_file_eq (H : List Nat → List Nat) (content : List Nat) :
    hash_file H content = toHex (H content) := by
  unfold hash_file shaFinalizeHex
  rw [foldl_shaUpdate, List.nil_append, toBlocks_flatten]

lemma foldl_hashStep (H : List Nat → List Nat) (l : List Entry) (st : List Nat) :
    l.foldl (fun st e => hashStep H st (e, relKey e)) st =
      st ++ (l.filterMap (entryStream H)).flatten := by
  induction l generalizing st with
  | nil => simp
  | cons e es ih =>
    by_cases hd : e.isDir = true
    · simp only [List.foldl_cons]
      have h1 : hashStep H st (e, relKey e) = st := by simp [hashStep, hd]
      rw [h1, ih]
      simp [entryStream, hd]
    · simp only [List.foldl_cons]
      have h1 : hashStep H st (e, relKey e) =
          st ++ (strBytes (relKey e) ++ strBytes (toHex (H e.content))) := by
        simp [hashStep, hd, shaUpdate, hash_file_eq, List.append_assoc]
      rw [h1, ih]
      simp [entryStream, hd, List.append_assoc]

/-- The loop of `hash_dir` equals the specification formulation. -/
lemma hash_dir_eq_spec (H : List Nat → List Nat) (fs : List Entry) (excludes : List Str)
    (exclude_default : Bool) :
    hash_dir H fs excludes exclude_default = hash_dir_spec H fs excludes exclude_default := by
  simp only [hash_dir, hash_dir_spec, shaFinalizeHex]
  rw [show (fun e : Entry => (e, to_relative_posix_path e.path)) =
      (fun e : Entry => (e, relKey e)) from rfl]
  rw [← insertionSort_map (fun e : Entry => (e, relKey e))
    (fun a b => leChars (relKey a) (relKey b) = true)
    (fun a b => leChars a.2 b.2 = true) (fun a b => Iff.rfl)]
  rw [List.foldl_map, foldl_hashStep, List.nil_append]

/-- Claim C2: `hash_dir` computes its result exactly as specified: filtered
entries sorted by slash-separated root-relative path in byte-lexicographic
order, directories skipped, and for each file the relative-path bytes
followed by the file's lowercase hex SHA-256 digest (computed by streaming
the file in fixed-size blocks) fed into one SHA-256, hex-encoded lowercase. -/
theorem hash_dir_follows_spec (H : List Nat → List Nat) (fs : List Entry)
    (excludes : List Str) (exclude_default : Bool) :
    hash_dir H fs excludes exclude_default = hash_dir_spec H fs excludes exclude_default :=
  hash_dir_eq_spec H fs excludes exclude_default

example :
    hash_dir (fun l => [l.length % 256])
      [⟨["b".data], false, [1, 2]⟩, ⟨["a".data], false, []⟩] [] false = "06".data := by
  decide

/-- Claim C7: `hash_dir` is deterministic.  The unordered `HashSet` inside
`filtered_paths` may surrender the tree's entries in any order; modelled as
an arbitrary permutation of the entry list, the resulting hash is unchanged
(for a real directory the relative paths of distinct entries differ, which
is the injectivity hypothesis). -/
theorem hash_dir_deterministic (H : List Nat → List Nat) (fs1 fs2 : List Entry)
    (ex : List Str) (dflt : Bool) (hperm : fs1.Perm fs2)
    (hinj : ∀ a ∈ fs1, ∀ b ∈ fs1, relKey a = relKey b → a = b) :
    hash_dir H fs1 ex dflt = hash_dir H fs2 ex dflt := by
  rw [hash_dir_eq_spec, hash_dir_eq_spec]
  simp only [hash_dir_spec]
  have hs : (filtered_paths fs1 ex dflt).insertionSort
        (fun a b => leChars (relKey a) (relKey b) = true) =
      (filtered_paths fs2 ex dflt).insertionSort
        (fun a b => leChars (relKey a) (relKey b) = true) := by
    apply eq_of_perm_of_sorted_key relKey
    · exact ((List.perm_insertionSort _ _).trans (filtered_paths_perm ex dflt hperm)).trans
        (List.perm_insertionSort _ _).symm
    · exact @List.sorted_insertionSort Entry
        (fun a b => leChars (relKey a) (relKey b) = true) _
        ⟨fun a b => by simpa using leChars_total (relKey a) (relKey b)⟩
        ⟨fun a b c hab hbc => leChars_trans hab hbc⟩ _
    · exact @List.sorted_insertionSort Entry
        (fun a b => leChars (relKey a) (relKey b) = true) _
        ⟨fun a b => by simpa using leChars_total (relKey a) (relKey b)⟩
        ⟨fun a b c hab hbc => leChars_trans hab hbc⟩ _
    · intro a ha b hb hk
      exact hinj a (filtered_paths_subset fs1 ex dflt a ((List.perm_insertionSort _ _).subset ha))
        b (filtered_paths_subset fs1 ex dflt b ((List.perm_insertionSort _ _).subset hb)) hk
  rw [hs]

/-- Witness: on a concrete two-entry tree presented in the two possible set
iteration orders, the hash agrees. -/
theorem hash_dir_deterministic_witness :
    hash_dir (fun l => [l.length % 256]) [fooDir, fooFile] [] true =
      hash_dir (fun l => [l.length % 256]) [fooFile, fooDir] [] true :=
  hash_dir_deterministic (fun l => [l.length % 256]) [fooDir, fooFile] [fooFile, fooDir]
    [] true (List.Perm.swap fooFile fooDir []) (by decide)

lemma validate_no_marker (H : List Nat → List Nat) (w : World)
    (h : w.rootIsDir = false ∨ markerContent w.entries = none) :
    validate_dir_with_hash_file H w = .err "Hash file does not exist".data := by
  unfold validate_dir_with_hash_file
  rcases h with h | h
  · cases hm : markerContent w.entries with
    | none => rfl
    | some bs => simp [h]
  · rw [h]

lemma validate_bad_hex (H : List Nat → List Nat) (w : World) (bs : List Nat)
    (h1 : markerContent w.entries = some bs) (h2 : w.rootIsDir = true)
    (h3 : isSha256Hex (trimChars (bytesAsChars bs)) = false) :
    validate_dir_with_hash_file H w = .err "Hash is not a SHA256".data := by
  unfold validate_dir_with_hash_file
  rw [h1]
  simp [h2, h3]

lemma validate_good_hex (H : List Nat → List Nat) (w : World) (bs : List Nat)
    (h1 : markerContent w.entries = some bs) (h2 : w.rootIsDir = true)
    (h3 : isSha256Hex (trimChars (bytesAsChars bs)) = true) :
    (validate_dir_with_hash_file H w = .ok () ↔
      hash_dir H w.entries [HASH_FILENAME] true = trimChars (bytesAsChars bs)) := by
  unfold validate_dir_with_hash_file validate_dir
  rw [h1]
  simp only [h2, h3, if_true]
  by_cases hb : hash_dir H w.entries [HASH_FILENAME] true == trimChars (bytesAsChars bs)
  · simp [hb]
    exact beq_iff_eq.mp hb
  · simp [hb]
    intro hc
    exact absurd (beq_iff_eq.mpr hc) (by simp [hb])

/-- Claim C9 is false on the code in one reading detail: Rust's `str::trim`
removes leading whitespace too.  A marker consisting of a space followed by
64 hex digits fails the claim's trailing-trim-then-pattern check, yet the
code trusts it and reports an ordinary hash mismatch instead of the
corrupt-marker error. -/
theorem marker_trim_counterexample :
    validate_dir_with_hash_file (fun _ => [])
        ⟨true, [⟨[HASH_FILENAME], false, 32 :: List.replicate 64 97⟩]⟩ =
      .err "Hash in file has changed since it was downloaded. Please download the component again.".data ∧
    isSha256Hex (trimEndChars (bytesAsChars (32 :: List.replicate 64 97))) = false := by
  decide

/-- Claim C9 (amended): `validate_dir_with_hash_file` fails with the
missing-marker error when the marker file (or the root directory) is
absent; it trusts the stored marker only if, after trimming leading and
trailing whitespace, the text matches the 64-character hexadecimal pattern,
rejecting corrupt or truncated markers with the distinct explicit error
`Hash is not a SHA256`; and when the pattern matches, it succeeds exactly
when the recomputed directory hash equals the stored text byte for byte. -/
theorem validate_marker_semantics (H : List Nat → List Nat) (w : World) :
    ((w.rootIsDir = false ∨ markerContent w.entries = none) →
      validate_dir_with_hash_file H w = .err "Hash file does not exist".data) ∧
    (∀ bs, markerContent w.entries = some bs → w.rootIsDir = true →
      isSha256Hex (trimChars (bytesAsChars bs)) = false →
      validate_dir_with_hash_file H w = .err "Hash is not a SHA256".data) ∧
    (∀ bs, markerContent w.entries = some bs → w.rootIsDir = true →
      isSha256Hex (trimChars (bytesAsChars bs)) = true →
      (validate_dir_with_hash_file H w = .ok () ↔
        hash_dir H w.entries [HASH_FILENAME] true = trimChars (bytesAsChars bs))) :=
  ⟨fun h => validate_no_marker H w h,
   fun bs h1 h2 h3 => validate_bad_hex H w bs h1 h2 h3,
   fun bs h1 h2 h3 => validate_good_hex H w bs h1 h2 h3⟩

/-- Witness: a concrete marker holding the 10 characters `0123456789` is
rejected with the distinct corrupt-marker error. -/
theorem validate_marker_semantics_witness :
    validate_dir_with_hash_file (fun _ => [])
        ⟨true, [⟨[HASH_FILENAME], false, [48, 49, 50, 51, 52, 53, 54, 55, 56, 57]⟩]⟩ =
      .err "Hash is not a SHA256".data :=
  (validate_marker_semantics (fun _ => [])
      ⟨true, [⟨[HASH_FILENAME], false, [48, 49, 50, 51, 52, 53, 54, 55, 56, 57]⟩]⟩).2.1
    [48, 49, 50, 51, 52, 53, 54, 55, 56, 57] (by decide) rfl (by decide)

/-- Claim C1: the installer reaches `CacheValid` (skipping the re-fetch)
exactly when the root exists, the installed manifest version satisfies the
constraint, and any present marker passes `validate_dir_with_hash_file`;
and a marker whose trimmed text has only 10 characters (a truncated marker)
always forces `CacheStaleOrMissing`, hence a re-fetch. -/
theorem cache_valid_conditions (H : List Nat → List Nat) (w : World)
    (manifest_version : Option Str) (satisfies : Str → Bool) :
    (check_cache H w manifest_version satisfies = CacheState.CacheValid ↔
      (w.rootIsDir = true ∧ (∃ v, manifest_version = some v ∧ satisfies v = true) ∧
        ∀ bs, markerContent w.entries = some bs →
          validate_dir_with_hash_file H w = .ok ())) ∧
    (∀ bs, markerContent w.entries = some bs →
      (trimChars (bytesAsChars bs)).length = 10 →
      check_cache H w manifest_version satisfies = CacheState.CacheStaleOrMissing) := by
  constructor
  · constructor
    · intro hc
      unfold check_cache at hc
      by_cases hb : installed_component_matches_version H w manifest_version satisfies = true
      · unfold installed_component_matches_version at hb
        simp only [Bool.and_eq_true] at hb
        obtain ⟨⟨h1, h2⟩, h3⟩ := hb
        refine ⟨h1, ?_, ?_⟩
        · cases manifest_version with
          | none => exact absurd h2 (by simp)
          | some v => exact ⟨v, rfl, h2⟩
        · intro bs hm
          rw [hm] at h3
          cases hv : validate_dir_with_hash_file H w with
          | ok u => cases u; rfl
          | err e => rw [hv] at h3; exact absurd h3 (by simp)
      · rw [if_neg hb] at hc
        exact absurd hc (by simp)
    · rintro ⟨h1, ⟨v, hveq, hsat⟩, hall⟩
      subst hveq
      have hb : installed_component_matches_version H w (some v) satisfies = true := by
        unfold installed_component_matches_version
        rw [h1]
        simp only [hsat, Bool.true_and]
        cases hm : markerContent w.entries with
        | none => rfl
        | some bs => rw [hall bs hm]
      unfold check_cache
      rw [if_pos hb]
  · intro bs hm hlen
    have hhex : isSha256Hex (trimChars (bytesAsChars bs)) = false := by
      unfold isSha256Hex
      have : (trimChars (bytesAsChars bs)).length ≠ 64 := by omega
      simp [this]
    unfold check_cache installed_component_matches_version
    by_cases hroot : w.rootIsDir = true
    · rw [hm, validate_bad_hex H w bs hm hroot hhex]
      simp
    · simp only [Bool.not_eq_true] at hroot
      simp [hroot]

/-- Witness: a world whose marker was truncated to the 10 characters
`0123456789` is stale even though the manifest version satisfies the
constraint, so the next install re-fetches. -/
theorem cache_valid_conditions_witness :
    check_cache (fun _ => [])
        ⟨true, [⟨[HASH_FILENAME], false, [48, 49, 50, 51, 52, 53, 54, 55, 56, 57]⟩]⟩
        (some "1.0.0".data) (fun _ => true) = CacheState.CacheStaleOrMissing :=
  (cache_valid_conditions (fun _ => [])
      ⟨true, [⟨[HASH_FILENAME], false, [48, 49, 50, 51, 52, 53, 54, 55, 56, 57]⟩]⟩
      (some "1.0.0".data) (fun _ => true)).2
    [48, 49, 50, 51, 52, 53, 54, 55, 56, 57] (by decide) (by decide)

lemma version_lt_iff (a b : Version) :
    Version.lt a b = true ↔
      (a.major < b.major ∨ (a.major = b.major ∧
        (a.minor < b.minor ∨ (a.minor = b.minor ∧ a.patch < b.patch)))) := by
  simp [Version.lt]

lemma version_lt_false_iff (a b : Version) :
    Version.lt a b = false ↔
      ¬ (a.major < b.major ∨ (a.major = b.major ∧
        (a.minor < b.minor ∨ (a.minor = b.minor ∧ a.patch < b.patch)))) := by
  rw [← version_lt_iff]
  cases h : Version.lt a b <;> simp

lemma version_lt_irrefl (a : Version) : Version.lt a a = false := by
  rw [version_lt_false_iff]
  omega

lemma version_not_lt_of_lt_of_not_lt {b x v : Version}
    (h1 : Version.lt b x = true) (h2 : Version.lt v x = false) :
    Version.lt v b = false := by
  rw [version_lt_iff] at h1
  rw [version_lt_false_iff] at h2 ⊢
  omega

lemma version_not_lt_of_not_lt_of_not_lt {b x v : Version}
    (h1 : Version.lt b x = false) (h2 : Version.lt v b = false) :
    Version.lt v x = false := by
  rw [version_lt_false_iff] at h1 h2 ⊢
  omega

lemma foldl_pickBest_some (l : List PublishedVersion) (b : PublishedVersion) :
    ∃ v, l.foldl pickBest (some b) = some v ∧ (v = b ∨ v ∈ l) ∧
      Version.lt v.version b.version = false ∧
      ∀ w ∈ l, Version.lt v.version w.version = false := by
  induction l generalizing b with
  | nil => exact ⟨b, rfl, Or.inl rfl, version_lt_irrefl _, by simp⟩
  | cons x t ih =>
    simp only [List.foldl_cons, pickBest]
    by_cases hbx : Version.lt b.version x.version = true
    · rw [if_pos hbx]
      obtain ⟨v, hv, hmem, hge, hall⟩ := ih x
      refine ⟨v, hv, ?_, ?_, ?_⟩
      · rcases hmem with h | h
        · exact Or.inr (by simp [h])
        · exact Or.inr (by simp [h])
      · exact version_not_lt_of_lt_of_not_lt hbx hge
      · intro w hw
        rcases List.mem_cons.mp hw with rfl | hw
        · exact hge
        · exact hall w hw
    · rw [if_neg hbx]
      obtain ⟨v, hv, hmem, hge, hall⟩ := ih b
      refine ⟨v, hv, ?_, hge, ?_⟩
      · rcases hmem with h | h
        · exact Or.inl h
        · exact Or.inr (List.mem_cons_of_mem x h)
      · intro w hw
        rcases List.mem_cons.mp hw with rfl | hw
        · exact version_not_lt_of_not_lt_of_not_lt (Bool.not_eq_true _ ▸ eq_false_of_ne_true hbx) hge
        · exact hall w hw

/-- Claim C3 is false on the code in its diagnostic clause: for the
constraint `=1.1.0`, matched only by the yanked `1.1.0`, selection fails,
and the available-versions diagnostic is built by filtering `yanked_at`
to `None` first — the yanked version does not appear in it. -/
theorem yanked_versions_omitted_counterexample :
    find_best_match demoVersions (fun v => v == ⟨1, 1, 0⟩) = none ∧
    (⟨⟨1, 1, 0⟩, "u2".data, some 5⟩ : PublishedVersion) ∈ demoVersions ∧
    available_versions demoVersions = "1.0.0, 1.2.0".data ∧
    ¬ ("1.1.0".data <:+: available_versions demoVersions) := by decide

/-- Claim C3 (amended): selection returns the highest non-yanked version
satisfying the constraint under semantic-version precedence and never a
yanked one; when no non-yanked version satisfies the constraint, the
operation fails with a message whose available-versions list contains
exactly the non-yanked published versions (the yanked versions are omitted
from the diagnostic). -/
theorem version_selection_semantics (versions : List PublishedVersion)
    (vmatch : Version → Bool) (name req_str : Str) :
    (∀ v, find_best_match versions vmatch = some v →
      v ∈ versions ∧ v.yanked_at = none ∧ vmatch v.version = true ∧
      ∀ w ∈ versions, w.yanked_at = none → vmatch w.version = true →
        Version.lt v.version w.version = false) ∧
    (find_best_match versions vmatch = none →
      (∀ w ∈ versions, w.yanked_at = none → vmatch w.version = false) ∧
      select_version versions vmatch name req_str =
        .err ("No matching version found for component '".data ++ name ++
          "' with version spec '".data ++ req_str ++
          "'. Available versions are: ".data ++
          joinCommaSpace (((versions.filter (fun v => v.yanked_at.isNone)).map
            (fun v => verString v.version))))) := by
  constructor
  · intro v hv
    unfold find_best_match at hv
    cases hl : versions.filter (fun v => v.yanked_at.isNone && vmatch v.version) with
    | nil => rw [hl] at hv; simp at hv
    | cons x t =>
      rw [hl] at hv
      simp only [List.foldl_cons, pickBest] at hv
      obtain ⟨u, hu, hmem, hge, hall⟩ := foldl_pickBest_some t x
      rw [hu] at hv
      obtain rfl := Option.some.inj hv
      have humem : u ∈ versions.filter (fun v => v.yanked_at.isNone && vmatch v.version) := by
        rw [hl]
        rcases hmem with rfl | h
        · exact List.mem_cons_self _ _
        · exact List.mem_cons_of_mem _ h
      have hprops := List.mem_filter.mp humem
      obtain ⟨hin, hflt⟩ := hprops
      simp only [Bool.and_eq_true, Option.isNone_iff_eq_none] at hflt
      refine ⟨hin, hflt.1, hflt.2, ?_⟩
      intro w hw hwy hwm
      have hwmem : w ∈ versions.filter (fun v => v.yanked_at.isNone && vmatch v.version) := by
        rw [List.mem_filter]
        exact ⟨hw, by simp [hwy, hwm]⟩
      rw [hl] at hwmem
      rcases List.mem_cons.mp hwmem with rfl | hwt
      · exact hge
      · exact hall w hwt
  · intro hnone
    have hl : versions.filter (fun v => v.yanked_at.isNone && vmatch v.version) = [] := by
      by_contra hne
      cases hl2 : versions.filter (fun v => v.yanked_at.isNone && vmatch v.version) with
      | nil => exact hne hl2
      | cons x t =>
        unfold find_best_match at hnone
        rw [hl2] at hnone
        simp only [List.foldl_cons, pickBest] at hnone
        obtain ⟨u, hu, -, -, -⟩ := foldl_pickBest_some t x
        rw [hu] at hnone
        exact Option.some_ne_none u hnone
    constructor
    · intro w hw hwy
      by_contra hwm
      have : w ∈ versions.filter (fun v => v.yanked_at.isNone && vmatch v.version) := by
        rw [List.mem_filter]
        refine ⟨hw, ?_⟩
        simp only [Bool.not_eq_false] at hwm
        simp [hwy, hwm]
      rw [hl] at this
      simp at this
    · unfold select_version
      rw [hnone]
      rfl

/-- Witness: for the caret-style constraint accepting every `1.x.y`,
selection on the demo list picks `1.2.0` — a member, non-yanked, matching,
and not below any other non-yanked matching version. -/
theorem version_selection_semantics_witness :
    pv120 ∈ demoVersions ∧ pv120.yanked_at = none ∧
    (fun v : Version => v.major == 1) pv120.version = true ∧
    ∀ w ∈ demoVersions, w.yanked_at = none →
      (fun v : Version => v.major == 1) w.version = true →
      Version.lt pv120.version w.version = false :=
  (version_selection_semantics demoVersions (fun v => v.major == 1)
      "mdns".data "c".data).1 pv120 (by decide)

/-- Claim C5 is false on the code: the separator `__` is permitted inside
both fields (only `/` is excluded by parsing), and the two distinct
accepted requests `a__b/c` and `a/b__c` map to the same target directory
name `a__b__c`. -/
theorem target_collision_counterexample :
    parse_component_name "a__b/c".data = some ("a__b".data, "c".data) ∧
    parse_component_name "a/b__c".data = some ("a".data, "b__c".data) ∧
    ("a__b".data, "c".data) ≠ ("a".data, "b__c".data) ∧
    target_dir_name ⟨"a__b".data, "c".data, "1".data⟩ =
      target_dir_name ⟨"a".data, "b__c".data, "1".data⟩ := by decide

lemma append_sep_inj (l1 : Str) :
    ∀ (l2 m1 m2 : Str), '_' ∉ l1 → '_' ∉ l2 →
      l1 ++ '_' :: '_' :: m1 = l2 ++ '_' :: '_' :: m2 → l1 = l2 ∧ m1 = m2 := by
  induction l1 with
  | nil =>
    intro l2 m1 m2 h1 h2 h
    cases l2 with
    | nil => simp_all
    | cons y ys =>
      simp only [List.nil_append, List.cons_append, List.cons.injEq] at h
      exact absurd (List.mem_cons_self y ys) (h.1 ▸ h2)
  | cons x xs ih =>
    intro l2 m1 m2 h1 h2 h
    cases l2 with
    | nil =>
      simp only [List.nil_append, List.cons_append, List.cons.injEq] at h
      exact absurd (List.mem_cons_self x xs) (h.1.symm ▸ h1)
    | cons y ys =>
      simp only [List.cons_append, List.cons.injEq] at h
      obtain ⟨rfl, htail⟩ := h
      have := ih ys m1 m2 (fun hc => h1 (List.mem_cons_of_mem x hc))
        (fun hc => h2 (List.mem_cons_of_mem x hc)) htail
      exact ⟨by rw [this.1], this.2⟩

/-- Claim C5 (amended): the target-directory mapping is injective over
accepted requests whose namespace contains no underscore: two such requests
with the same target directory name coincide in namespace and name.  (With
underscores allowed in the namespace the map has genuine collisions.) -/
theorem target_dir_name_injective_no_underscore (c1 c2 : IdfComponentDep)
    (h1 : '_' ∉ c1.ns) (h2 : '_' ∉ c2.ns)
    (h : target_dir_name c1 = target_dir_name c2) :
    c1.ns = c2.ns ∧ c1.name = c2.name :=
  append_sep_inj c1.ns c2.ns c1.name c2.name h1 h2 h

/-- Witness: the mapping applied to a concrete underscore-free request. -/
theorem target_dir_name_injective_no_underscore_witness :
    (⟨"esp".data, "mdns".data, "1".data⟩ : IdfComponentDep).ns =
      (⟨"esp".data, "mdns".data, "2".data⟩ : IdfComponentDep).ns ∧
    (⟨"esp".data, "mdns".data, "1".data⟩ : IdfComponentDep).name =
      (⟨"esp".data, "mdns".data, "2".data⟩ : IdfComponentDep).name :=
  target_dir_name_injective_no_underscore
    ⟨"esp".data, "mdns".data, "1".data⟩ ⟨"esp".data, "mdns".data, "2".data⟩
    (by decide) (by decide) (by decide)

/-- Claim C6: `install` processes requests strictly in input order, returns
the first resolution error with no partial solution, and on success returns
exactly one resolved component per request, in request order (the i-th
entry is the resolution of the i-th request). -/
theorem install_batch_semantics
    (resolve : IdfComponentDep → Str → RustResult ResolvedIdfComponent)
    (components_dir : Str) :
    (∀ (pre : List IdfComponentDep) (c : IdfComponentDep) (post : List IdfComponentDep)
        (e : Str),
      (∀ d ∈ pre, ∃ r, resolve d (target_path components_dir d) = .ok r) →
      resolve c (target_path components_dir c) = .err e →
      install resolve components_dir (pre ++ c :: post) = .err e) ∧
    (∀ (l : List IdfComponentDep) (sol : List ResolvedIdfComponent),
      install resolve components_dir l = .ok sol →
      sol.length = l.length ∧
      ∀ (i : Nat) (h1 : i < l.length) (h2 : i < sol.length),
        resolve (l.get ⟨i, h1⟩) (target_path components_dir (l.get ⟨i, h1⟩)) =
          .ok (sol.get ⟨i, h2⟩)) := by
  constructor
  · intro pre
    induction pre with
    | nil =>
      intro c post e _ herr
      simp only [List.nil_append, install]
      rw [herr]
    | cons d ds ih =>
      intro c post e hall herr
      obtain ⟨r, hr⟩ := hall d (List.mem_cons_self d ds)
      simp only [List.cons_append, install, List.append_eq]
      rw [hr, ih c post e (fun x hx => hall x (List.mem_cons_of_mem d hx)) herr]
  · intro l
    induction l with
    | nil =>
      intro sol hsol
      simp only [install] at hsol
      cases hsol
      exact ⟨rfl, fun i h1 _ => absurd h1 (by simp)⟩
    | cons c rest ih =>
      intro sol hsol
      simp only [install] at hsol
      cases hr : resolve c (target_path components_dir c) with
      | err e => rw [hr] at hsol; cases hsol
      | ok r =>
        rw [hr] at hsol
        cases hrest : install resolve components_dir rest with
        | err e => rw [hrest] at hsol; cases hsol
        | ok rs =>
          rw [hrest] at hsol
          cases hsol
          obtain ⟨hlen, hidx⟩ := ih rs hrest
          refine ⟨by simp [hlen], ?_⟩
          intro i h1 h2
          cases i with
          | zero => exact hr
          | succ j =>
            exact hidx j (by simpa using h1) (by simpa using h2)

/-- Witness: the batch `[goodDep, badDep]` aborts with the error of the
second request, and the successful singleton batch resolves index 0 to the
resolution of its request. -/
theorem install_batch_semantics_witness :
    install resolveDemo "/c".data [goodDep, badDep] = .err "boom".data ∧
    ([⟨"esp".data, "good".data, ⟨1, 0, 0⟩, none,
        target_path "/c".data goodDep⟩] : List ResolvedIdfComponent).length =
      [goodDep].length ∧
    ∀ (i : Nat) (h1 : i < [goodDep].length)
      (h2 : i < ([⟨"esp".data, "good".data, ⟨1, 0, 0⟩, none,
        target_path "/c".data goodDep⟩] : List ResolvedIdfComponent).length),
      resolveDemo ([goodDep].get ⟨i, h1⟩)
          (target_path "/c".data ([goodDep].get ⟨i, h1⟩)) =
        .ok (([⟨"esp".data, "good".data, ⟨1, 0, 0⟩, none,
          target_path "/c".data goodDep⟩] : List ResolvedIdfComponent).get ⟨i, h2⟩) :=
  ⟨(install_batch_semantics resolveDemo "/c".data).1 [goodDep] badDep [] "boom".data
      (fun d hd => by
        rcases List.mem_singleton.mp hd with rfl
        exact ⟨_, rfl⟩)
      (by decide),
    (install_batch_semantics resolveDemo "/c".data).2 [goodDep]
      [⟨"esp".data, "good".data, ⟨1, 0, 0⟩, none, target_path "/c".data goodDep⟩]
      (by decide)⟩

/-- Claim C10: once the component is considered installed (cache check
answered, any re-fetch succeeded, marker read), an absent manifest or a
manifest version that does not parse makes `resolve_component` panic with
the respective `expect`/`unwrap` message — by these equalities the
`err` constructor is never the outcome of those two conditions. -/
theorem resolve_component_panics (install_result : RustResult Unit)
    (read_hash_result : RustResult Str) (parse_version : Str → Option Version)
    (c : IdfComponentDep) (component_root : Str) (matched : Bool) (h : Str) :
    (matched = true ∨ install_result = .ok ()) →
    read_hash_result = .ok h →
    (resolve_component (.ok matched) install_result read_hash_result (.ok none)
        parse_version c component_root =
      .panicked "Component metadata file should exist after install".data) ∧
    (∀ m : ComponentMetadata, parse_version m.version = none →
      resolve_component (.ok matched) install_result read_hash_result (.ok (some m))
          parse_version c component_root =
        .panicked "called Option::unwrap on a None value".data) := by
  intro hinst hhash
  have hcase : matched = true ∨ (matched = false ∧ install_result = RustResult.ok ()) := by
    cases matched
    · rcases hinst with h | h
      · exact absurd h (by simp)
      · exact Or.inr ⟨rfl, h⟩
    · exact Or.inl rfl
  subst hhash
  constructor
  · rcases hcase with rfl | ⟨rfl, hok⟩
    · simp only [resolve_component]
      rfl
    · subst hok
      simp only [resolve_component]
      rfl
  · intro m hm
    rcases hcase with rfl | ⟨rfl, hok⟩
    · simp only [resolve_component]
      rw [hm]
      rfl
    · subst hok
      simp only [resolve_component]
      rw [hm]
      rfl

/-- Witness: with a successful cache check, marker read, and a version
parser rejecting everything, both panic conditions yield the panic
outcomes on concrete inputs. -/
theorem resolve_component_panics_witness :
    (resolve_component (.ok true) (.ok ()) (.ok "h".data) (.ok none)
        (fun _ => none) goodDep "/c".data =
      .panicked "Component metadata file should exist after install".data) ∧
    (∀ m : ComponentMetadata, (fun _ : Str => (none : Option Version)) m.version = none →
      resolve_component (.ok true) (.ok ()) (.ok "h".data) (.ok (some m))
          (fun _ => none) goodDep "/c".data =
        .panicked "called Option::unwrap on a None value".data) :=
  resolve_component_panics (.ok ()) (.ok "h".data) (fun _ => none) goodDep "/c".data
    true "h".data (Or.inl rfl) rfl
